import Mathlib

/-!
Shallow embedding of the emotion-detection dashboard (`main.py`) and proofs
about its per-frame analysis pipeline, history log, CSV export, presentation
layer, and camera acquisition loops.

Numbers: Python floats are modelled as rationals (`ℚ`); machine timestamps as
an explicit `DateTime` record supplied by an injected clock.
-/

namespace FaceDet

/-- Pixel rectangle `(x, y, width, height)`, as in `result["box"]`. -/
structure Box where
  x : Int
  y : Int
  w : Int
  h : Int
deriving Repr, DecidableEq

/-- One face detection from the external FER detector: bounding box plus the
emotion-name to probability mapping, listed in the dict's iteration order. -/
structure DetectionResult where
  box : Box
  emotions : List (String × ℚ)
deriving Repr, DecidableEq

/-- Wall-clock time at second resolution, as produced by `datetime.now()`. -/
structure DateTime where
  year : ℕ
  month : ℕ
  day : ℕ
  hour : ℕ
  minute : ℕ
  second : ℕ
deriving Repr, DecidableEq

/-- Python `max(items, key=lambda x: x[1])` on a dict's items: the first
maximal element (in iteration order) wins ties; `none` on an empty dict
(where Python would raise `ValueError`; the FER detector always returns a
nonempty emotions mapping, and theorems carry that assumption). -/
def topEmotion : List (String × ℚ) → Option (String × ℚ)
  | [] => none
  | p :: ps => some (ps.foldl (fun acc q => if q.2 > acc.2 then q else acc) p)

/-- Round half to even to an integer, as Python's `round`. -/
def roundHalfEven (q : ℚ) : ℤ :=
  let f := ⌊q⌋
  let r := q - f
  if r < 1 / 2 then f
  else if 1 / 2 < r then f + 1
  else if f % 2 = 0 then f else f + 1

/-- Python `round(conf, 2)`. -/
def round2 (q : ℚ) : ℚ := (roundHalfEven (q * 100) : ℚ) / 100

/-- Structural (kernel-computable) little-endian base-10 digit list; the first
argument is fuel. Bridged to `Nat.digits 10` by `digitsRevTen_eq`. -/
def digitsRevTen : ℕ → ℕ → List ℕ
  | 0, _ => []
  | _ + 1, 0 => []
  | fuel + 1, n + 1 => (n + 1) % 10 :: digitsRevTen fuel ((n + 1) / 10)

/-- Big-endian decimal digits of `n`, with `natDigits 0 = [0]`. -/
def natDigits (n : ℕ) : List ℕ :=
  if n = 0 then [0] else (digitsRevTen n n).reverse

/-- The character for a decimal digit. -/
def digitChar (d : ℕ) : Char := Char.ofNat (48 + d)

/-- Decimal rendering of a natural number (as Python's `str` / f-string). -/
def natToStr (n : ℕ) : String := String.mk ((natDigits n).map digitChar)

/-- Zero-pad to width 2, as `strftime` field specifiers `%m %d %H %M %S`. -/
def pad2 (n : ℕ) : String :=
  if n < 10 then "0" ++ natToStr n else natToStr n

/-- Zero-pad to width 4, as `strftime` field specifier `%Y`. -/
def pad4 (n : ℕ) : String :=
  if n < 10 then "000" ++ natToStr n
  else if n < 100 then "00" ++ natToStr n
  else if n < 1000 then "0" ++ natToStr n
  else natToStr n

/-- `datetime.now().strftime("%Y-%m-%d %H:%M:%S")`. -/
def formatTimestamp (t : DateTime) : String :=
  pad4 t.year ++ "-" ++ pad2 t.month ++ "-" ++ pad2 t.day ++ " " ++
    pad2 t.hour ++ ":" ++ pad2 t.minute ++ ":" ++ pad2 t.second

/-- Python format spec `{:.1f}` for a nonnegative float: round half to even at
one decimal place. (Only applied to nonnegative confidences.) -/
def fmt1 (q : ℚ) : String :=
  let n := (roundHalfEven (q * 10)).toNat
  natToStr (n / 10) ++ "." ++ natToStr (n % 10)

/-- Python `str.capitalize()`: first character upper-cased, rest lower-cased. -/
def pyCapitalize (s : String) : String :=
  match s.data with
  | [] => ""
  | c :: cs => String.mk (c.toUpper :: cs.map Char.toLower)

/-- The fixed emotion-to-message mapping `get_message` of `main.py`, with its
fallback for unknown labels. -/
def get_message (emotion : String) : String :=
  if emotion = "happy" then "😊 You're radiating joy!"
  else if emotion = "sad" then "😢 It's okay to feel down sometimes."
  else if emotion = "angry" then "😠 Breathe deep. You're strong."
  else if emotion = "fear" then "😨 You're safe and supported."
  else if emotion = "surprise" then "😮 Something unexpected?"
  else if emotion = "neutral" then "😐 Steady and balanced."
  else if emotion = "disgust" then "😖 Something doesn't feel right."
  else "😐 You seem " ++ emotion ++ "."

/-- One presentable result card for a qualifying face, as built by
`analyze_emotions`. -/
structure FaceCard where
  index : ℕ
  emotion : String
  confidence : ℚ
  message : String
deriving Repr, DecidableEq

/-- One row appended to `st.session_state.history`. -/
structure HistoryEntry where
  timestamp : String
  face : ℕ
  emotion : String
  confidence : ℚ
deriving Repr, DecidableEq

/-- The net effect of one `cv2.rectangle` + `cv2.putText` pair drawn onto the
frame for a qualifying face. -/
structure Overlay where
  box : Box
  label : String
deriving Repr, DecidableEq

/-- Everything the per-detection loop of `analyze_emotions` accumulates:
cards returned, history entries appended, overlays drawn on the frame. -/
structure StepOut where
  cards : List FaceCard
  entries : List HistoryEntry
  overlays : List Overlay
deriving Repr, DecidableEq

/-- The `for i, result in enumerate(results)` loop body of `analyze_emotions`
(lines 54-80 of `main.py`): take the argmax emotion, scale to percent, skip the
face when `conf < threshold`, otherwise log a history entry, draw the overlay,
and emit a card. `clock i` is the value of `datetime.now()` when face `i` is
processed. -/
def processResults (clock : ℕ → DateTime) (threshold : ℚ) :
    List DetectionResult → ℕ → StepOut
  | [], _ => ⟨[], [], []⟩
  | r :: rs, i =>
    let rest := processResults clock threshold rs (i + 1)
    match topEmotion r.emotions with
    | none => rest
    | some (mood, p) =>
      let conf := p * 100
      if conf < threshold then rest
      else
        ⟨{ index := i + 1, emotion := mood, confidence := conf,
           message := get_message mood } :: rest.cards,
         { timestamp := formatTimestamp (clock i), face := i + 1, emotion := mood,
           confidence := round2 conf } :: rest.entries,
         { box := r.box,
           label := pyCapitalize mood ++ " (" ++ fmt1 conf ++ "%)" } :: rest.overlays⟩

/-- Decode failure: `cv2.imdecode` returns `None` on undecodable bytes and the
subsequent detector invocation raises, aborting the analysis call. -/
inductive AnalysisError where
  | decodeError
deriving Repr, DecidableEq

/-- `analyze_emotions(image_bytes, frame, threshold)` of `main.py`. The opaque
decode/detect boundary is abstracted: `image` is the decode result (`none` when
the bytes cannot be decoded), `detect` the external FER detector. The returned
pair is (call outcome, session history after the call); the history is returned
on both branches because it is process-wide mutable state. -/
def analyze_emotions {Img : Type} (detect : Img → List DetectionResult)
    (clock : ℕ → DateTime) (history : List HistoryEntry)
    (image : Option Img) (frame : Option (List Overlay)) (threshold : ℚ) :
    Except AnalysisError (List FaceCard × Option (List Overlay)) × List HistoryEntry :=
  match image with
  | none => (.error .decodeError, history)
  | some img =>
    let out := processResults clock threshold (detect img) 0
    (.ok (out.cards, frame.map (fun f => f ++ out.overlays)), history ++ out.entries)

/-- Placeholder detection used only as the default of `List.getD`. -/
def defaultDet : DetectionResult := ⟨⟨0, 0, 0, 0⟩, []⟩

/-- Boolean flag: the detection survives the `conf < threshold` filter of
`analyze_emotions` (its argmax confidence, scaled to percent, reaches the
threshold). -/
def qualifiesB (threshold : ℚ) (r : DetectionResult) : Bool :=
  match topEmotion r.emotions with
  | none => false
  | some (_, p) => decide (threshold ≤ p * 100)

/-- The 1-based positions (offset by the loop counter `i`) of the detections
that survive the threshold filter, in detector order. -/
def keptIndicesFrom (threshold : ℚ) : List DetectionResult → ℕ → List ℕ
  | [], _ => []
  | r :: rs, i =>
    if qualifiesB threshold r then (i + 1) :: keptIndicesFrom threshold rs (i + 1)
    else keptIndicesFrom threshold rs (i + 1)

lemma cards_map_index (clock : ℕ → DateTime) (threshold : ℚ) :
    ∀ (rs : List DetectionResult) (i : ℕ),
      ((processResults clock threshold rs i).cards.map fun c => c.index) =
        keptIndicesFrom threshold rs i
  | [], _ => rfl
  | r :: rs, i => by
    have ih := cards_map_index clock threshold rs (i + 1)
    cases htop : topEmotion r.emotions with
    | none => simp [processResults, keptIndicesFrom, qualifiesB, htop, ih]
    | some mp =>
      obtain ⟨m, p⟩ := mp
      by_cases hlt : p * 100 < threshold
      · simp [processResults, keptIndicesFrom, qualifiesB, htop, hlt, not_le.mpr hlt, ih]
      · simp [processResults, keptIndicesFrom, qualifiesB, htop, hlt, not_lt.mp hlt, ih]

lemma entries_map_face (clock : ℕ → DateTime) (threshold : ℚ) :
    ∀ (rs : List DetectionResult) (i : ℕ),
      ((processResults clock threshold rs i).entries.map fun e => e.face) =
        keptIndicesFrom threshold rs i
  | [], _ => rfl
  | r :: rs, i => by
    have ih := entries_map_face clock threshold rs (i + 1)
    cases htop : topEmotion r.emotions with
    | none => simp [processResults, keptIndicesFrom, qualifiesB, htop, ih]
    | some mp =>
      obtain ⟨m, p⟩ := mp
      by_cases hlt : p * 100 < threshold
      · simp [processResults, keptIndicesFrom, qualifiesB, htop, hlt, not_le.mpr hlt, ih]
      · simp [processResults, keptIndicesFrom, qualifiesB, htop, hlt, not_lt.mp hlt, ih]

lemma overlays_length_eq (clock : ℕ → DateTime) (threshold : ℚ) :
    ∀ (rs : List DetectionResult) (i : ℕ),
      (processResults clock threshold rs i).overlays.length =
        (processResults clock threshold rs i).cards.length
  | [], _ => rfl
  | r :: rs, i => by
    have ih := overlays_length_eq clock threshold rs (i + 1)
    cases htop : topEmotion r.emotions with
    | none => simp [processResults, htop, ih]
    | some mp =>
      obtain ⟨m, p⟩ := mp
      by_cases hlt : p * 100 < threshold
      · simp [processResults, htop, hlt, ih]
      · simp [processResults, htop, hlt, ih]

lemma mem_keptIndicesFrom (threshold : ℚ) :
    ∀ (rs : List DetectionResult) (i k : ℕ),
      k ∈ keptIndicesFrom threshold rs i ↔
        ∃ j, j < rs.length ∧ k = i + j + 1 ∧
          qualifiesB threshold (rs.getD j defaultDet) = true
  | [], i, k => by simp [keptIndicesFrom]
  | r :: rs, i, k => by
    have ih := mem_keptIndicesFrom threshold rs (i + 1) k
    by_cases hq : qualifiesB threshold r
    · rw [keptIndicesFrom, if_pos hq, List.mem_cons, ih]
      constructor
      · rintro (rfl | ⟨j, hj, rfl, hqj⟩)
        · exact ⟨0, by simp, by omega, by simpa using hq⟩
        · exact ⟨j + 1, by simpa using hj, by omega, by simpa using hqj⟩
      · rintro ⟨j, hj, rfl, hqj⟩
        cases j with
        | zero => exact Or.inl (by omega)
        | succ j' =>
          refine Or.inr ⟨j', by simpa using hj, by omega, by simpa using hqj⟩
    · rw [keptIndicesFrom, if_neg hq, ih]
      constructor
      · rintro ⟨j, hj, rfl, hqj⟩
        exact ⟨j + 1, by simpa using hj, by omega, by simpa using hqj⟩
      · rintro ⟨j, hj, rfl, hqj⟩
        cases j with
        | zero => exact absurd (by simpa using hqj) hq
        | succ j' => exact ⟨j', by simpa using hj, by omega, by simpa using hqj⟩

/-- Claim C1: `analyze_emotions` emits a FaceCard for face `i` (1-based index
`i + 1`) iff that face's top-emotion confidence (argmax probability times 100)
is at least the threshold; the same holds for the newly appended history
entries, and the number of overlays drawn on the frame equals the number of
cards, so a below-threshold face contributes no card, no history entry, and no
frame annotation. -/
theorem faceCard_iff_threshold
    {Img : Type} (detect : Img → List DetectionResult) (clock : ℕ → DateTime)
    (history : List HistoryEntry) (img : Img) (frame : Option (List Overlay))
    (threshold : ℚ) (cards : List FaceCard) (frame' : Option (List Overlay))
    (hist' : List HistoryEntry)
    (hrun : analyze_emotions detect clock history (some img) frame threshold =
      (.ok (cards, frame'), hist'))
    (i : ℕ) (hi : i < (detect img).length) (m : String) (p : ℚ)
    (htop : topEmotion ((detect img).getD i defaultDet).emotions = some (m, p)) :
    ((∃ c ∈ cards, c.index = i + 1) ↔ threshold ≤ p * 100) ∧
    ((∃ e ∈ hist'.drop history.length, e.face = i + 1) ↔ threshold ≤ p * 100) ∧
    (∀ f0, frame = some f0 →
      ∃ os, frame' = some (f0 ++ os) ∧ os.length = cards.length) := by
  simp only [analyze_emotions, Prod.mk.injEq, Except.ok.injEq] at hrun
  obtain ⟨⟨hcards, hframe⟩, hhist⟩ := hrun
  have hqual : qualifiesB threshold ((detect img).getD i defaultDet) = true ↔
      threshold ≤ p * 100 := by
    unfold qualifiesB
    rw [htop]
    simp
  have hmem : ∀ k, (∃ c ∈ cards, c.index = k) ↔
      k ∈ keptIndicesFrom threshold (detect img) 0 := by
    intro k
    rw [← cards_map_index clock threshold (detect img) 0, ← hcards, List.mem_map]
  have hdrop : hist'.drop history.length = (processResults clock threshold (detect img) 0).entries := by
    rw [← hhist, List.drop_left]
  refine ⟨?_, ?_, ?_⟩
  · rw [hmem (i + 1), mem_keptIndicesFrom]
    constructor
    · rintro ⟨j, hj, hk, hqj⟩
      have : j = i := by omega
      subst this
      exact hqual.mp hqj
    · intro hle
      exact ⟨i, hi, by omega, hqual.mpr hle⟩
  · rw [hdrop]
    have hmem' : (∃ e ∈ (processResults clock threshold (detect img) 0).entries,
        e.face = i + 1) ↔ i + 1 ∈ keptIndicesFrom threshold (detect img) 0 := by
      rw [← entries_map_face clock threshold (detect img) 0, List.mem_map]
    rw [hmem', mem_keptIndicesFrom]
    constructor
    · rintro ⟨j, hj, hk, hqj⟩
      have : j = i := by omega
      subst this
      exact hqual.mp hqj
    · intro hle
      exact ⟨i, hi, by omega, hqual.mpr hle⟩
  · intro f0 hf0
    subst hf0
    refine ⟨(processResults clock threshold (detect img) 0).overlays, ?_, ?_⟩
    · rw [← hframe]; rfl
    · rw [overlays_length_eq, hcards]

lemma keptIndicesFrom_length_le (threshold : ℚ) :
    ∀ (rs : List DetectionResult) (i : ℕ),
      (keptIndicesFrom threshold rs i).length ≤ rs.length
  | [], _ => by simp [keptIndicesFrom]
  | r :: rs, i => by
    have ih := keptIndicesFrom_length_le threshold rs (i + 1)
    by_cases hq : qualifiesB threshold r
    · rw [keptIndicesFrom, if_pos hq]
      simp only [List.length_cons]
      omega
    · rw [keptIndicesFrom, if_neg hq]
      simp only [List.length_cons]
      omega

lemma keptIndicesFrom_length_eq_iff (threshold : ℚ) :
    ∀ (rs : List DetectionResult) (i : ℕ),
      (keptIndicesFrom threshold rs i).length = rs.length ↔
        ∀ r ∈ rs, qualifiesB threshold r = true
  | [], i => by simp [keptIndicesFrom]
  | r :: rs, i => by
    have ih := keptIndicesFrom_length_eq_iff threshold rs (i + 1)
    have hle := keptIndicesFrom_length_le threshold rs (i + 1)
    by_cases hq : qualifiesB threshold r
    · simp only [keptIndicesFrom, if_pos hq, List.length_cons, Nat.add_right_cancel_iff,
        List.mem_cons, ih]
      constructor
      · intro h s hs
        rcases hs with rfl | hs
        · exact hq
        · exact h s hs
      · intro h s hs
        exact h s (Or.inr hs)
    · simp only [keptIndicesFrom, if_neg hq, List.length_cons, List.mem_cons]
      constructor
      · intro h
        omega
      · intro h
        exact absurd (h r (Or.inl rfl)) hq

lemma keptIndicesFrom_lt (threshold : ℚ) :
    ∀ (rs : List DetectionResult) (i k : ℕ),
      k ∈ keptIndicesFrom threshold rs i → i < k
  | [], i, k => by simp [keptIndicesFrom]
  | r :: rs, i, k => by
    have ih := keptIndicesFrom_lt threshold rs (i + 1) k
    by_cases hq : qualifiesB threshold r
    · rw [keptIndicesFrom, if_pos hq, List.mem_cons]
      rintro (rfl | hk)
      · omega
      · have := ih hk
        omega
    · rw [keptIndicesFrom, if_neg hq]
      intro hk
      have := ih hk
      omega

lemma keptIndicesFrom_pairwise (threshold : ℚ) :
    ∀ (rs : List DetectionResult) (i : ℕ),
      (keptIndicesFrom threshold rs i).Pairwise (fun a b => a < b)
  | [], i => by simp [keptIndicesFrom]
  | r :: rs, i => by
    have ih := keptIndicesFrom_pairwise threshold rs (i + 1)
    by_cases hq : qualifiesB threshold r
    · rw [keptIndicesFrom, if_pos hq]
      refine List.Pairwise.cons ?_ ih
      intro k hk
      have := keptIndicesFrom_lt threshold rs (i + 1) k hk
      omega
    · rw [keptIndicesFrom, if_neg hq]
      exact ih

/-- Claim C2: the number of FaceCards returned by `analyze_emotions` is at
most the number of detections, with equality iff every detection's top-emotion
confidence meets the threshold. -/
theorem cards_le_detections
    {Img : Type} (detect : Img → List DetectionResult) (clock : ℕ → DateTime)
    (history : List HistoryEntry) (img : Img) (frame : Option (List Overlay))
    (threshold : ℚ) (cards : List FaceCard) (frame' : Option (List Overlay))
    (hist' : List HistoryEntry)
    (hrun : analyze_emotions detect clock history (some img) frame threshold =
      (.ok (cards, frame'), hist'))
    (hne : ∀ r ∈ detect img, r.emotions ≠ []) :
    cards.length ≤ (detect img).length ∧
    (cards.length = (detect img).length ↔
      ∀ r ∈ detect img, ∃ m p, topEmotion r.emotions = some (m, p) ∧
        threshold ≤ p * 100) := by
  simp only [analyze_emotions, Prod.mk.injEq, Except.ok.injEq] at hrun
  obtain ⟨⟨hcards, hframe⟩, hhist⟩ := hrun
  have hlen : cards.length = (keptIndicesFrom threshold (detect img) 0).length := by
    rw [← hcards, ← cards_map_index clock threshold (detect img) 0, List.length_map]
  have hbridge : ∀ r ∈ detect img, (qualifiesB threshold r = true ↔
      ∃ m p, topEmotion r.emotions = some (m, p) ∧ threshold ≤ p * 100) := by
    intro r hr
    have hner := hne r hr
    cases htop : topEmotion r.emotions with
    | none =>
      cases hemo : r.emotions with
      | nil => exact absurd hemo hner
      | cons a l =>
        rw [hemo] at htop
        simp [topEmotion] at htop
    | some mp =>
      obtain ⟨m, p⟩ := mp
      unfold qualifiesB
      rw [htop]
      simp only [decide_eq_true_eq, Option.some.injEq, Prod.mk.injEq]
      constructor
      · intro h
        exact ⟨m, p, ⟨rfl, rfl⟩, h⟩
      · rintro ⟨m1, p1, ⟨rfl, rfl⟩, h⟩
        exact h
  rw [hlen]
  constructor
  · exact keptIndicesFrom_length_le threshold (detect img) 0
  · rw [keptIndicesFrom_length_eq_iff]
    constructor
    · intro h r hr
      exact (hbridge r hr).mp (h r hr)
    · intro h r hr
      exact (hbridge r hr).mpr (h r hr)

/-- Claim C9: each emitted FaceCard's index (and each new HistoryEntry's face
field) is the face's 1-based position in the original detector output: the
emitted index lists are exactly the 1-based positions of the qualifying
detections, strictly increasing, never renumbered to be consecutive. -/
theorem card_indices_are_detector_positions
    {Img : Type} (detect : Img → List DetectionResult) (clock : ℕ → DateTime)
    (history : List HistoryEntry) (img : Img) (frame : Option (List Overlay))
    (threshold : ℚ) (cards : List FaceCard) (frame' : Option (List Overlay))
    (hist' : List HistoryEntry)
    (hrun : analyze_emotions detect clock history (some img) frame threshold =
      (.ok (cards, frame'), hist'))
    (_hne : ∀ r ∈ detect img, r.emotions ≠ []) :
    (cards.map fun c => c.index) = keptIndicesFrom threshold (detect img) 0 ∧
    ((hist'.drop history.length).map fun e => e.face) =
      keptIndicesFrom threshold (detect img) 0 ∧
    (cards.map fun c => c.index).Pairwise (fun a b => a < b) ∧
    (∀ k, k ∈ cards.map (fun c => c.index) ↔
      ∃ j, j < (detect img).length ∧ k = j + 1 ∧
        qualifiesB threshold ((detect img).getD j defaultDet) = true) := by
  simp only [analyze_emotions, Prod.mk.injEq, Except.ok.injEq] at hrun
  obtain ⟨⟨hcards, hframe⟩, hhist⟩ := hrun
  have h1 : (cards.map fun c => c.index) = keptIndicesFrom threshold (detect img) 0 := by
    rw [← hcards, cards_map_index]
  have hdrop : hist'.drop history.length =
      (processResults clock threshold (detect img) 0).entries := by
    rw [← hhist, List.drop_left]
  have h2 : ((hist'.drop history.length).map fun e => e.face) =
      keptIndicesFrom threshold (detect img) 0 := by
    rw [hdrop, entries_map_face]
  refine ⟨h1, h2, ?_, ?_⟩
  · rw [h1]
    exact keptIndicesFrom_pairwise threshold (detect img) 0
  · intro k
    rw [h1, mem_keptIndicesFrom]
    constructor
    · rintro ⟨j, hj, hk, hqj⟩
      exact ⟨j, hj, by omega, hqj⟩
    · rintro ⟨j, hj, hk, hqj⟩
      exact ⟨j, hj, by omega, hqj⟩

/-- The mocked single-face detector output of the spec's concrete test:
box `(10,10,50,50)`, emotions `{happy: 0.82, sad: 0.10, neutral: 0.08}`. -/
def c5Face : DetectionResult :=
  { box := ⟨10, 10, 50, 50⟩,
    emotions := [("happy", 82 / 100), ("sad", 10 / 100), ("neutral", 8 / 100)] }

/-- A fixed wall clock for the concrete test. -/
def c5Clock : ℕ → DateTime := fun _ => ⟨2026, 10, 12, 14, 3, 5⟩

/-- Claim C5: with a detector returning exactly `c5Face` and the default
threshold 50, `analyze_emotions` returns exactly one FaceCard with emotion
"happy", confidence 82.0 and the joy message, and appends exactly one
HistoryEntry with face 1, emotion "happy", confidence 82.0. -/
theorem analyze_single_happy_face :
    analyze_emotions (fun _ : Unit => [c5Face]) c5Clock [] (some ()) none 50 =
      (.ok ([{ index := 1, emotion := "happy", confidence := 82,
               message := "😊 You're radiating joy!" }], none),
       [{ timestamp := "2026-10-12 14:03:05", face := 1, emotion := "happy",
          confidence := 82 }]) := by
  simp [analyze_emotions, processResults, topEmotion, round2, roundHalfEven, c5Face, c5Clock]
  norm_num
  exact ⟨rfl, rfl⟩

/-- A one-face detector output used to instantiate hypothesis-bearing
theorems at a concrete input. -/
def w1Face : DetectionResult := ⟨⟨0, 0, 1, 1⟩, [("happy", 1)]⟩

/-- A one-face detector over a trivial image type. -/
def w1Detect : Unit → List DetectionResult := fun _ => [w1Face]

/-- The card `analyze_emotions` builds for `w1Face` at threshold 50. -/
def w1Card : FaceCard := ⟨1, "happy", 100, "😊 You're radiating joy!"⟩

/-- The history entry `analyze_emotions` appends for `w1Face` at threshold 50
under the clock `c5Clock`. -/
def w1Entry : HistoryEntry := ⟨"2026-10-12 14:03:05", 1, "happy", 100⟩

lemma w1_run : analyze_emotions w1Detect c5Clock [] (some ()) none 50 =
    (.ok ([w1Card], none), [w1Entry]) := by
  simp [analyze_emotions, processResults, topEmotion, w1Detect, w1Face, w1Card,
    w1Entry, c5Clock, round2, roundHalfEven]
  norm_num
  exact ⟨rfl, rfl⟩

/-- Witness for claim C1 at the concrete one-face input. -/
theorem faceCard_iff_threshold_witness :
    ((∃ c ∈ [w1Card], c.index = 0 + 1) ↔ (50 : ℚ) ≤ 1 * 100) ∧
    ((∃ e ∈ ([w1Entry] : List HistoryEntry).drop ([] : List HistoryEntry).length,
        e.face = 0 + 1) ↔ (50 : ℚ) ≤ 1 * 100) ∧
    (∀ f0, (none : Option (List Overlay)) = some f0 →
      ∃ os, (none : Option (List Overlay)) = some (f0 ++ os) ∧
        os.length = ([w1Card] : List FaceCard).length) :=
  faceCard_iff_threshold w1Detect c5Clock [] () none 50 [w1Card] none [w1Entry]
    w1_run 0 (by simp [w1Detect]) "happy" 1 (by rfl)

/-- Witness for claim C2 at the concrete one-face input. -/
theorem cards_le_detections_witness :
    ([w1Card] : List FaceCard).length ≤ (w1Detect ()).length ∧
    (([w1Card] : List FaceCard).length = (w1Detect ()).length ↔
      ∀ r ∈ w1Detect (), ∃ m p, topEmotion r.emotions = some (m, p) ∧
        (50 : ℚ) ≤ p * 100) :=
  cards_le_detections w1Detect c5Clock [] () none 50 [w1Card] none [w1Entry]
    w1_run (by intro r hr; simp [w1Detect] at hr; subst hr; simp [w1Face])

/-- Witness for claim C9 at the concrete one-face input. -/
theorem card_indices_are_detector_positions_witness :
    (([w1Card] : List FaceCard).map fun c => c.index) =
      keptIndicesFrom 50 (w1Detect ()) 0 ∧
    ((([w1Entry] : List HistoryEntry).drop ([] : List HistoryEntry).length).map
        fun e => e.face) = keptIndicesFrom 50 (w1Detect ()) 0 ∧
    (([w1Card] : List FaceCard).map fun c => c.index).Pairwise (fun a b => a < b) ∧
    (∀ k, k ∈ ([w1Card] : List FaceCard).map (fun c => c.index) ↔
      ∃ j, j < (w1Detect ()).length ∧ k = j + 1 ∧
        qualifiesB 50 ((w1Detect ()).getD j defaultDet) = true) :=
  card_indices_are_detector_positions w1Detect c5Clock [] () none 50 [w1Card]
    none [w1Entry] w1_run
    (by intro r hr; simp [w1Detect] at hr; subst hr; simp [w1Face])

/-- Claim C3: when the image bytes cannot be decoded (`cv2.imdecode` yields
`None` and the detector invocation raises), the analysis call fails with a
decode error and the session history is left exactly as it was; the failure is
confined to the one call. -/
theorem decode_failure_aborts_without_history_mutation
    {Img : Type} (detect : Img → List DetectionResult) (clock : ℕ → DateTime)
    (history : List HistoryEntry) (frame : Option (List Overlay))
    (threshold : ℚ) :
    analyze_emotions detect clock history none frame threshold =
      (.error .decodeError, history) := rfl

/-- Python `int()` applied to a float: truncation toward zero. -/
def pyInt (q : ℚ) : ℤ := if 0 ≤ q then ⌊q⌋ else ⌈q⌉

/-- One card rendered by `display_cards` (lines 87-101 of `main.py`): the
emotion label, the confidence bar whose CSS width is `int(c['confidence'])`
percent, the bar text `"Confidence: {:.1f}%"`, and the shadcn card
title/description. -/
structure RenderedCard where
  emotionLabel : String
  barWidth : ℤ
  barText : String
  title : String
  description : String
deriving Repr, DecidableEq

/-- The per-card body of `display_cards`. -/
def renderCard (c : FaceCard) : RenderedCard :=
  { emotionLabel := pyCapitalize c.emotion,
    barWidth := pyInt c.confidence,
    barText := "Confidence: " ++ fmt1 c.confidence ++ "%",
    title := "Face " ++ natToStr c.index,
    description := c.message }

/-- `display_cards(cards)` of `main.py`. -/
def display_cards (cs : List FaceCard) : List RenderedCard := cs.map renderCard

/-- A concrete card with fractional confidence 82.7, on which truncation and
round-to-nearest disagree. -/
def c6Card : FaceCard := ⟨1, "happy", 827 / 10, "😊 You're radiating joy!"⟩

/-- Claim C6 is false as stated: the rendered bar width is not the confidence
rounded to the nearest percent; at confidence 82.7 the bar width is 82 while
the nearest percent is 83. -/
theorem bar_width_not_round_to_nearest :
    ¬ ∀ c : FaceCard, (renderCard c).barWidth = round c.confidence := by
  intro h
  have hc := h c6Card
  rw [renderCard] at hc
  simp only [c6Card, pyInt, round_eq] at hc
  norm_num at hc

/-- Claim C6 (amended): the rendered confidence bar's width in percent equals
the card's confidence truncated (rounded toward zero, i.e. the floor for the
nonnegative confidences the pipeline produces) to a whole percent. -/
theorem bar_width_truncates (c : FaceCard) (h : 0 ≤ c.confidence) :
    (renderCard c).barWidth = ⌊c.confidence⌋ := by
  simp [renderCard, pyInt, h]

/-- Witness for the amended claim C6 at the concrete card. -/
theorem bar_width_truncates_witness :
    (renderCard c6Card).barWidth = ⌊c6Card.confidence⌋ :=
  bar_width_truncates c6Card (by norm_num [c6Card])

lemma digitsRevTen_eq : ∀ (fuel n : ℕ), n ≤ fuel →
    digitsRevTen fuel n = Nat.digits 10 n
  | 0, 0, _ => by simp [digitsRevTen]
  | 0, n + 1, h => by omega
  | fuel + 1, 0, _ => by simp [digitsRevTen]
  | fuel + 1, n + 1, h => by
    rw [digitsRevTen, Nat.digits_def' (by norm_num : 1 < 10) (Nat.succ_pos n)]
    congr 1
    exact digitsRevTen_eq fuel ((n + 1) / 10)
      (by
        have := Nat.div_lt_self (Nat.succ_pos n) (show 1 < 10 by norm_num)
        omega)

lemma natDigits_length (n : ℕ) :
    (natDigits n).length = if n = 0 then 1 else Nat.log 10 n + 1 := by
  unfold natDigits
  by_cases h : n = 0
  · simp [h]
  · rw [if_neg h, if_neg h, digitsRevTen_eq n n le_rfl, List.length_reverse,
      Nat.digits_len 10 n (by norm_num) h]

lemma natToStr_length (n : ℕ) : (natToStr n).length = (natDigits n).length := by
  have h : (natToStr n).length = ((natDigits n).map digitChar).length := rfl
  rw [h, List.length_map]

lemma log10_eq (m n : ℕ) (h1 : 10 ^ m ≤ n) (h2 : n < 10 ^ (m + 1)) :
    Nat.log 10 n = m :=
  Nat.log_eq_of_pow_le_of_lt_pow h1 h2

lemma pad2_length (n : ℕ) (h : n < 100) : (pad2 n).length = 2 := by
  unfold pad2
  by_cases h10 : n < 10
  · rw [if_pos h10, String.length_append, natToStr_length, natDigits_length]
    by_cases h0 : n = 0
    · subst h0
      decide
    · rw [if_neg h0, log10_eq 0 n (by norm_num; omega) (by norm_num; omega)]
      decide
  · rw [if_neg h10, natToStr_length, natDigits_length, if_neg (by omega),
      log10_eq 1 n (by norm_num; omega) (by norm_num; omega)]

lemma pad4_length (n : ℕ) (h : n < 10000) : (pad4 n).length = 4 := by
  unfold pad4
  by_cases h10 : n < 10
  · rw [if_pos h10, String.length_append, natToStr_length, natDigits_length]
    by_cases h0 : n = 0
    · subst h0
      decide
    · rw [if_neg h0, log10_eq 0 n (by norm_num; omega) (by norm_num; omega)]
      decide
  · rw [if_neg h10]
    by_cases h100 : n < 100
    · rw [if_pos h100, String.length_append, natToStr_length, natDigits_length,
        if_neg (by omega), log10_eq 1 n (by norm_num; omega) (by norm_num; omega)]
      decide
    · rw [if_neg h100]
      by_cases h1000 : n < 1000
      · rw [if_pos h1000, String.length_append, natToStr_length, natDigits_length,
          if_neg (by omega), log10_eq 2 n (by norm_num; omega) (by norm_num; omega)]
        decide
      · rw [if_neg h1000, natToStr_length, natDigits_length, if_neg (by omega),
          log10_eq 3 n (by norm_num; omega) (by norm_num; omega)]

lemma formatTimestamp_length (t : DateTime) (hy : t.year < 10000)
    (hmo : t.month < 100) (hd : t.day < 100) (hh : t.hour < 100)
    (hmi : t.minute < 100) (hs : t.second < 100) :
    (formatTimestamp t).length = 19 := by
  rw [formatTimestamp]
  simp only [String.length_append, pad4_length t.year hy, pad2_length t.month hmo,
    pad2_length t.day hd, pad2_length t.hour hh, pad2_length t.minute hmi,
    pad2_length t.second hs]
  rfl

lemma mem_entries (clock : ℕ → DateTime) (threshold : ℚ) :
    ∀ (rs : List DetectionResult) (i : ℕ) (e : HistoryEntry),
      e ∈ (processResults clock threshold rs i).entries →
        ∃ j, j < rs.length ∧ e.face = i + j + 1 ∧
          e.timestamp = formatTimestamp (clock (i + j))
  | [], i, e => by simp [processResults]
  | r :: rs, i, e => by
    have ih := mem_entries clock threshold rs (i + 1) e
    cases htop : topEmotion r.emotions with
    | none =>
      intro he
      rw [processResults] at he
      simp only [htop] at he
      obtain ⟨j, hj, hf, ht⟩ := ih he
      refine ⟨j + 1, ?_, ?_, ?_⟩
      · simpa using hj
      · omega
      · rw [ht]
        have harg : i + 1 + j = i + (j + 1) := by omega
        rw [harg]
    | some mp =>
      obtain ⟨m, p⟩ := mp
      intro he
      rw [processResults] at he
      simp only [htop] at he
      by_cases hlt : p * 100 < threshold
      · rw [if_pos hlt] at he
        obtain ⟨j, hj, hf, ht⟩ := ih he
        refine ⟨j + 1, ?_, ?_, ?_⟩
        · simpa using hj
        · omega
        · rw [ht]
          have harg : i + 1 + j = i + (j + 1) := by omega
          rw [harg]
      · rw [if_neg hlt] at he
        rcases List.mem_cons.mp he with rfl | he'
        · exact ⟨0, by simp, by simp, by simp⟩
        · obtain ⟨j, hj, hf, ht⟩ := ih he'
          refine ⟨j + 1, ?_, ?_, ?_⟩
          · simpa using hj
          · omega
          · rw [ht]
            have harg : i + 1 + j = i + (j + 1) := by omega
            rw [harg]

/-- Claim C10: every newly appended history entry's timestamp is the wall
clock at the moment its face was processed, rendered through the fixed
strftime format `%Y-%m-%d %H:%M:%S`; for in-range dates that format always
has the fixed 19-character second-resolution shape. -/
theorem history_timestamps_fixed_format
    {Img : Type} (detect : Img → List DetectionResult) (clock : ℕ → DateTime)
    (history : List HistoryEntry) (img : Img) (frame : Option (List Overlay))
    (threshold : ℚ) (cards : List FaceCard) (frame' : Option (List Overlay))
    (hist' : List HistoryEntry)
    (hrun : analyze_emotions detect clock history (some img) frame threshold =
      (.ok (cards, frame'), hist'))
    (t : DateTime) (hy : t.year < 10000) (hmo : t.month < 100) (hd : t.day < 100)
    (hh : t.hour < 100) (hmi : t.minute < 100) (hs : t.second < 100) :
    (∀ e ∈ hist'.drop history.length, ∃ i, i < (detect img).length ∧
      e.face = i + 1 ∧ e.timestamp = formatTimestamp (clock i)) ∧
    (formatTimestamp t).length = 19 := by
  simp only [analyze_emotions, Prod.mk.injEq, Except.ok.injEq] at hrun
  obtain ⟨⟨hcards, hframe⟩, hhist⟩ := hrun
  constructor
  · intro e he
    rw [← hhist, List.drop_left] at he
    obtain ⟨j, hj, hf, ht⟩ := mem_entries clock threshold (detect img) 0 e he
    refine ⟨j, hj, ?_, ?_⟩
    · omega
    · rw [ht]
      have harg : 0 + j = j := by omega
      rw [harg]
  · exact formatTimestamp_length t hy hmo hd hh hmi hs

/-- Witness for claim C10 at the concrete one-face input and a concrete date. -/
theorem history_timestamps_fixed_format_witness :
    (∀ e ∈ ([w1Entry] : List HistoryEntry).drop ([] : List HistoryEntry).length,
      ∃ i, i < (w1Detect ()).length ∧ e.face = i + 1 ∧
        e.timestamp = formatTimestamp (c5Clock i)) ∧
    (formatTimestamp ⟨2026, 10, 12, 14, 3, 5⟩).length = 19 :=
  history_timestamps_fixed_format w1Detect c5Clock [] () none 50 [w1Card] none
    [w1Entry] w1_run ⟨2026, 10, 12, 14, 3, 5⟩ (by norm_num) (by norm_num)
    (by norm_num) (by norm_num) (by norm_num) (by norm_num)

/-- Exit reason of the Live-mode polling loop. -/
inductive LiveExit where
  | completed
  | failed
deriving Repr, DecidableEq

/-- The Live-tab `while time.time() - start < 60` loop (lines 146-157 of
`main.py`), over an abstract integer clock: `elapsed` is the wall-clock time
since `start`; each iteration first checks the 60-unit budget, then reads one
frame (`reads k` is the success of the `k`-th `cap.read()`); a failed read
breaks out early, a successful read runs the pipeline and render (taking
`proc k` time units) and then sleeps the fixed 5-unit inter-frame delay.
Returns the exit reason and the elapsed time on exit. -/
def liveLoop (reads : ℕ → Bool) (proc : ℕ → ℕ) (k : ℕ) (elapsed : ℕ) :
    LiveExit × ℕ :=
  if elapsed < 60 then
    if reads k then liveLoop reads proc (k + 1) (elapsed + proc k + 5)
    else (.failed, elapsed)
  else (.completed, elapsed)
termination_by 60 - elapsed
decreasing_by omega

lemma liveLoop_all_ok (reads : ℕ → Bool) (proc : ℕ → ℕ)
    (hr : ∀ n, reads n = true) :
    ∀ k e, (liveLoop reads proc k e).1 = LiveExit.completed ∧
      60 ≤ (liveLoop reads proc k e).2 := by
  intro k e
  induction k, e using liveLoop.induct reads proc with
  | case1 k e he hk ih =>
    rw [liveLoop.eq_def, if_pos he, if_pos hk]
    exact ih
  | case2 k e he hk => exact absurd (hr k) hk
  | case3 k e he =>
    rw [liveLoop.eq_def, if_neg he]
    exact ⟨rfl, by omega⟩

lemma liveLoop_failed_early (reads : ℕ → Bool) (proc : ℕ → ℕ) :
    ∀ k e, (liveLoop reads proc k e).1 = LiveExit.failed →
      (liveLoop reads proc k e).2 < 60 := by
  intro k e
  induction k, e using liveLoop.induct reads proc with
  | case1 k e he hk ih =>
    rw [liveLoop.eq_def, if_pos he, if_pos hk]
    exact ih
  | case2 k e he hk =>
    rw [liveLoop.eq_def, if_pos he, if_neg hk]
    exact fun _ => he
  | case3 k e he =>
    rw [liveLoop.eq_def, if_neg he]
    intro h'
    simp at h'

/-- Claim C7: the Live-mode polling loop (60-unit wall-clock budget, fixed
5-unit inter-frame delay) terminates; when every camera read succeeds it
completes at or after the budget, and when it stops because a read failed it
terminates early, before the budget. -/
theorem live_loop_budget_or_early_failure (reads : ℕ → Bool) (proc : ℕ → ℕ) :
    ((∀ n, reads n = true) → (liveLoop reads proc 0 0).1 = LiveExit.completed ∧
      60 ≤ (liveLoop reads proc 0 0).2) ∧
    ((liveLoop reads proc 0 0).1 = LiveExit.failed →
      (liveLoop reads proc 0 0).2 < 60) :=
  ⟨fun hr => liveLoop_all_ok reads proc hr 0 0,
   liveLoop_failed_early reads proc 0 0⟩

/-- Witness for claim C7: an always-succeeding camera completes at the budget;
an immediately failing camera stops early. -/
theorem live_loop_budget_or_early_failure_witness :
    ((liveLoop (fun _ => true) (fun _ => 0) 0 0).1 = LiveExit.completed ∧
      60 ≤ (liveLoop (fun _ => true) (fun _ => 0) 0 0).2) ∧
    (liveLoop (fun _ => false) (fun _ => 0) 0 0).2 < 60 :=
  ⟨(live_loop_budget_or_early_failure (fun _ => true) (fun _ => 0)).1
      (fun _ => rfl),
   (live_loop_budget_or_early_failure (fun _ => false) (fun _ => 0)).2
      (by simp [liveLoop])⟩

/-- One camera-device event: `cv2.VideoCapture(0)`, `cap.read()` (with its
success flag), or `cap.release()`. -/
inductive CamEvent where
  | acquire
  | read (ok : Bool)
  | release
deriving Repr, DecidableEq

/-- The camera events of the Capture tab (lines 121-133 of `main.py`): open,
one read, release immediately regardless of the read's success. -/
def captureTrace (readOk : Bool) : List CamEvent :=
  [.acquire, .read readOk, .release]

/-- The camera events emitted inside the Live-tab polling loop. -/
def liveLoopTrace (reads : ℕ → Bool) (proc : ℕ → ℕ) (k elapsed : ℕ) :
    List CamEvent :=
  if elapsed < 60 then
    if reads k then
      .read true :: liveLoopTrace reads proc (k + 1) (elapsed + proc k + 5)
    else [.read false]
  else []
termination_by 60 - elapsed
decreasing_by omega

/-- The camera events of the Live tab (lines 140-161 of `main.py`): acquire
once, run the polling loop, release after the loop on either exit path
(budget expiry or read failure). -/
def liveTrace (reads : ℕ → Bool) (proc : ℕ → ℕ) : List CamEvent :=
  .acquire :: (liveLoopTrace reads proc 0 0 ++ [.release])

/-- Run a trace against an open-device counter: `some m` is the number of
open acquisitions after the trace; `none` flags a double acquire or a release
of a closed device. Starting from 0, `camOpens tr 0 = some 0` says the trace
never holds more than one acquisition open and closes the device by the end. -/
def camOpens : List CamEvent → ℕ → Option ℕ
  | [], n => some n
  | .acquire :: tr, n => if n = 0 then camOpens tr 1 else none
  | .release :: tr, n => if n = 1 then camOpens tr 0 else none
  | .read _ :: tr, n => camOpens tr n

lemma liveLoopTrace_reads_only (reads : ℕ → Bool) (proc : ℕ → ℕ) :
    ∀ k e ev, ev ∈ liveLoopTrace reads proc k e → ∃ b, ev = CamEvent.read b := by
  intro k e
  induction k, e using liveLoopTrace.induct reads proc with
  | case1 k e he hk ih =>
    intro ev hev
    rw [liveLoopTrace.eq_def, if_pos he, if_pos hk] at hev
    rcases List.mem_cons.mp hev with rfl | h'
    · exact ⟨true, rfl⟩
    · exact ih ev h'
  | case2 k e he hk =>
    intro ev hev
    rw [liveLoopTrace.eq_def, if_pos he, if_neg hk] at hev
    simp at hev
    exact ⟨false, hev⟩
  | case3 k e he =>
    intro ev hev
    rw [liveLoopTrace.eq_def, if_neg he] at hev
    simp at hev

lemma camOpens_reads_only (tr : List CamEvent)
    (h : ∀ ev ∈ tr, ∃ b, ev = CamEvent.read b) (n : ℕ) :
    camOpens tr n = some n := by
  induction tr with
  | nil => rfl
  | cons a tr ih =>
    obtain ⟨b, hb⟩ := h a (List.mem_cons_self a tr)
    subst hb
    exact ih (fun ev hev => h ev (List.mem_cons_of_mem _ hev))

lemma camOpens_append_reads_only (tr tr2 : List CamEvent)
    (h : ∀ ev ∈ tr, ∃ b, ev = CamEvent.read b) (n : ℕ) :
    camOpens (tr ++ tr2) n = camOpens tr2 n := by
  induction tr with
  | nil => rfl
  | cons a tr ih =>
    obtain ⟨b, hb⟩ := h a (List.mem_cons_self a tr)
    subst hb
    rw [List.cons_append]
    exact ih (fun ev hev => h ev (List.mem_cons_of_mem _ hev))

lemma count_eq_zero_of_reads_only (tr : List CamEvent)
    (h : ∀ ev ∈ tr, ∃ b, ev = CamEvent.read b) :
    tr.count CamEvent.release = 0 ∧ tr.count CamEvent.acquire = 0 := by
  constructor <;> rw [List.count_eq_zero] <;> intro hmem <;>
    obtain ⟨b, hb⟩ := h _ hmem <;> simp at hb

/-- Claim C8: in both Capture and Live modes the camera is acquired exactly
once and released exactly once on every exit path (Capture regardless of read
success; Live on budget expiry and on read failure), and each trace holds at
most one acquisition open at a time, ending with the device closed. -/
theorem camera_released_exactly_once (readOk : Bool) (reads : ℕ → Bool)
    (proc : ℕ → ℕ) :
    (captureTrace readOk).count CamEvent.release = 1 ∧
    (captureTrace readOk).count CamEvent.acquire = 1 ∧
    camOpens (captureTrace readOk) 0 = some 0 ∧
    (liveTrace reads proc).count CamEvent.release = 1 ∧
    (liveTrace reads proc).count CamEvent.acquire = 1 ∧
    camOpens (liveTrace reads proc) 0 = some 0 := by
  have hro := liveLoopTrace_reads_only reads proc 0 0
  have hcnt := count_eq_zero_of_reads_only _ hro
  refine ⟨by cases readOk <;> rfl, by cases readOk <;> rfl,
    by cases readOk <;> rfl, ?_, ?_, ?_⟩
  · simp [liveTrace, List.count_cons, List.count_append, hcnt.1]
  · simp [liveTrace, List.count_cons, List.count_append, hcnt.2]
  · show camOpens (liveLoopTrace reads proc 0 0 ++ [CamEvent.release]) 1 = some 0
    rw [camOpens_append_reads_only (liveLoopTrace reads proc 0 0)
      [CamEvent.release] hro 1]
    rfl

/-- The header row of the export, in the fixed column order pandas derives
from the dict keys of the history entries. -/
def csvHeader : List String := ["timestamp", "face", "emotion", "confidence"]

/-- Decimal rendering of a 2-decimal-rounded nonnegative confidence, as the
float repr pandas writes: integer part, a dot, then the fractional digits with
trailing zeros trimmed but at least one digit (82 ↦ "82.0", 81.5 ↦ "81.5",
81.05 ↦ "81.05", 81.55 ↦ "81.55"). -/
def confToString (q : ℚ) : String :=
  let k := (⌊q * 100⌋).toNat
  let ip := k / 100
  let f := k % 100
  natToStr ip ++ "." ++
    (if f = 0 then "0"
     else if f % 10 = 0 then natToStr (f / 10)
     else if f < 10 then "0" ++ natToStr f
     else natToStr f)

/-- The CSV cells of one history entry, in header order. -/
def entryRow (e : HistoryEntry) : List String :=
  [e.timestamp, natToStr e.face, e.emotion, confToString e.confidence]

/-- `pd.DataFrame(st.session_state.history).to_csv(..., index=False)` (lines
171-172 of `main.py`): the header row followed by one row per history entry in
insertion order. -/
def exportCSV (history : List HistoryEntry) : List (List String) :=
  csvHeader :: history.map entryRow

/-- A flat file store keyed by path; writing replaces the content at the path
(full overwrite) and leaves every other path untouched. -/
def writeFile (fs : String → Option (List (List String))) (path : String)
    (content : List (List String)) : String → Option (List (List String)) :=
  fun p => if p = path then some content else fs p

/-- The numeric value of a decimal digit character (spec-side parser). -/
def charDigit (c : Char) : ℕ := c.toNat - 48

/-- Spec-side parser for a decimal natural number cell. -/
def parseNatStr (s : String) : Option ℕ :=
  if s.data ≠ [] ∧ s.data.all (fun c => c.isDigit) then
    some (s.data.foldl (fun a c => 10 * a + charDigit c) 0)
  else none

/-- Split a character list at its first dot. -/
def splitDot : List Char → Option (List Char × List Char)
  | [] => none
  | c :: cs =>
    if c = '.' then some ([], cs)
    else (splitDot cs).map (fun p => (c :: p.1, p.2))

/-- Spec-side parser for a decimal fraction cell such as "82.0" or "81.55". -/
def parseDecimal (s : String) : Option ℚ :=
  match splitDot s.data with
  | none => none
  | some (a, b) =>
    if a ≠ [] ∧ b ≠ [] ∧ a.all (fun c => c.isDigit) ∧ b.all (fun c => c.isDigit) then
      some ((a.foldl (fun x c => 10 * x + charDigit c) 0 : ℕ) +
        ((b.foldl (fun x c => 10 * x + charDigit c) 0 : ℕ) : ℚ) / 10 ^ b.length)
    else none

/-- Spec-side parser reconstructing a `HistoryEntry` from one CSV row. -/
def parseRow (row : List String) : Option HistoryEntry :=
  match row with
  | [ts, faceS, emo, confS] =>
    match parseNatStr faceS, parseDecimal confS with
    | some face, some conf => some ⟨ts, face, emo, conf⟩
    | _, _ => none
  | _ => none

lemma natDigits_lt_ten (n : ℕ) : ∀ d ∈ natDigits n, d < 10 := by
  intro d hd
  unfold natDigits at hd
  by_cases h : n = 0
  · rw [if_pos h] at hd
    simp at hd
    omega
  · rw [if_neg h, digitsRevTen_eq n n le_rfl, List.mem_reverse] at hd
    exact Nat.digits_lt_base (by norm_num) hd

lemma natDigits_ne_nil (n : ℕ) : natDigits n ≠ [] := by
  unfold natDigits
  by_cases h : n = 0
  · simp [h]
  · rw [if_neg h, digitsRevTen_eq n n le_rfl]
    simp [Nat.digits_ne_nil_iff_ne_zero, h]

lemma charDigit_digitChar (d : ℕ) (h : d < 10) : charDigit (digitChar d) = d := by
  interval_cases d <;> decide

lemma digitChar_isDigit (d : ℕ) (h : d < 10) : (digitChar d).isDigit = true := by
  interval_cases d <;> decide

lemma digitChar_ne_dot (d : ℕ) (h : d < 10) : digitChar d ≠ '.' := by
  interval_cases d <;> decide

lemma foldr_digits (L : List ℕ) :
    L.foldr (fun d a => 10 * a + d) 0 = Nat.ofDigits 10 L := by
  induction L with
  | nil => rfl
  | cons d L ih =>
    simp [Nat.ofDigits_cons, ih]
    ring

lemma foldl_natDigits (n : ℕ) :
    (natDigits n).foldl (fun a d => 10 * a + d) 0 = n := by
  unfold natDigits
  by_cases h : n = 0
  · subst h
    decide
  · rw [if_neg h, digitsRevTen_eq n n le_rfl, List.foldl_reverse]
    have hfr : (Nat.digits 10 n).foldr (fun x y => 10 * y + x) 0 =
        (Nat.digits 10 n).foldr (fun d a => 10 * a + d) 0 := rfl
    rw [hfr, foldr_digits, Nat.ofDigits_digits]

lemma foldl_digitChars (ds : List ℕ) (hds : ∀ d ∈ ds, d < 10) :
    ∀ a : ℕ, ((ds.map digitChar).foldl (fun x c => 10 * x + charDigit c) a =
      ds.foldl (fun x d => 10 * x + d) a) := by
  induction ds with
  | nil => intro a; rfl
  | cons d ds ih =>
    intro a
    simp only [List.map_cons, List.foldl_cons,
      charDigit_digitChar d (hds d (List.mem_cons_self d ds))]
    exact ih (fun x hx => hds x (List.mem_cons_of_mem _ hx)) _

lemma parse_natToStr (n : ℕ) : parseNatStr (natToStr n) = some n := by
  unfold parseNatStr natToStr
  have hdata : (String.mk ((natDigits n).map digitChar)).data =
      (natDigits n).map digitChar := rfl
  rw [hdata, if_pos, foldl_digitChars (natDigits n) (natDigits_lt_ten n) 0,
    foldl_natDigits]
  constructor
  · simp [natDigits_ne_nil n]
  · rw [List.all_eq_true]
    intro c hc
    rw [List.mem_map] at hc
    obtain ⟨d, hd, rfl⟩ := hc
    exact digitChar_isDigit d (natDigits_lt_ten n d hd)

lemma natDigits_single (d : ℕ) (h : d < 10) : natDigits d = [d] := by
  interval_cases d <;> decide

lemma natDigits_two (f : ℕ) (h10 : 10 ≤ f) (h : f < 100) :
    natDigits f = [f / 10, f % 10] := by
  have h1 : Nat.digits 10 f = f % 10 :: Nat.digits 10 (f / 10) :=
    Nat.digits_def' (by norm_num) (by omega)
  have h2 : Nat.digits 10 (f / 10) = f / 10 % 10 :: Nat.digits 10 (f / 10 / 10) :=
    Nat.digits_def' (by norm_num) (by omega)
  have h3 : f / 10 / 10 = 0 := by omega
  have h4 : f / 10 % 10 = f / 10 := Nat.mod_eq_of_lt (by omega)
  unfold natDigits
  rw [if_neg (by omega), digitsRevTen_eq f f le_rfl, h1, h2, h3, h4]
  simp

lemma splitDot_append (a b : List Char) (ha : '.' ∉ a) :
    splitDot (a ++ '.' :: b) = some (a, b) := by
  induction a with
  | nil => simp [splitDot]
  | cons c a ih =>
    have hc : ¬(c = '.') := fun h => ha (by rw [h]; exact List.mem_cons_self _ _)
    rw [List.cons_append, splitDot, if_neg hc,
      ih (fun h => ha (List.mem_cons_of_mem _ h))]
    rfl

lemma parseDecimal_append (aN : ℕ) (bs : List ℕ) (hbs : ∀ d ∈ bs, d < 10)
    (hbne : bs ≠ []) :
    parseDecimal (natToStr aN ++ "." ++ String.mk (bs.map digitChar)) =
      some ((aN : ℚ) +
        ((bs.foldl (fun x d => 10 * x + d) 0 : ℕ) : ℚ) / 10 ^ bs.length) := by
  have hdata : (natToStr aN ++ "." ++ String.mk (bs.map digitChar)).data =
      ((natDigits aN).map digitChar) ++ '.' :: bs.map digitChar := by
    rw [String.data_append, String.data_append, List.append_assoc]
    rfl
  have hdot : '.' ∉ (natDigits aN).map digitChar := by
    intro hmem
    rw [List.mem_map] at hmem
    obtain ⟨d, hd, hdc⟩ := hmem
    exact digitChar_ne_dot d (natDigits_lt_ten aN d hd) hdc
  simp only [parseDecimal, hdata, splitDot_append _ _ hdot]
  rw [if_pos]
  · rw [foldl_digitChars (natDigits aN) (natDigits_lt_ten aN) 0, foldl_natDigits,
      foldl_digitChars bs hbs 0, List.length_map]
  · refine ⟨by simp [natDigits_ne_nil aN], by simp [hbne], ?_, ?_⟩
    · rw [List.all_eq_true]
      intro c hc
      rw [List.mem_map] at hc
      obtain ⟨d, hd, rfl⟩ := hc
      exact digitChar_isDigit d (natDigits_lt_ten aN d hd)
    · rw [List.all_eq_true]
      intro c hc
      rw [List.mem_map] at hc
      obtain ⟨d, hd, rfl⟩ := hc
      exact digitChar_isDigit d (hbs d hd)

lemma parse_confToString (k : ℕ) :
    parseDecimal (confToString ((k : ℚ) / 100)) = some ((k : ℚ) / 100) := by
  have hfloor : (⌊(k : ℚ) / 100 * 100⌋).toNat = k := by
    rw [div_mul_cancel₀ _ (by norm_num : (100 : ℚ) ≠ 0), Int.floor_natCast]
    exact Int.toNat_natCast k
  simp only [confToString, hfloor]
  by_cases hf0 : k % 100 = 0
  · rw [if_pos hf0]
    show parseDecimal (natToStr (k / 100) ++ "." ++
      String.mk (([0] : List ℕ).map digitChar)) = some ((k : ℚ) / 100)
    rw [parseDecimal_append (k / 100) [0] (by simp) (by simp)]
    congr 1
    simp only [List.foldl_cons, List.foldl_nil]
    norm_num
    rw [eq_div_iff (show (100 : ℚ) ≠ 0 by norm_num)]
    norm_cast
    omega
  · rw [if_neg hf0]
    by_cases hf10 : k % 100 % 10 = 0
    · rw [if_pos hf10]
      show parseDecimal (natToStr (k / 100) ++ "." ++
        String.mk ((natDigits (k % 100 / 10)).map digitChar)) = some ((k : ℚ) / 100)
      rw [parseDecimal_append (k / 100) (natDigits (k % 100 / 10))
        (natDigits_lt_ten _) (natDigits_ne_nil _)]
      congr 1
      rw [foldl_natDigits, natDigits_single (k % 100 / 10) (by omega)]
      norm_num
      field_simp
      norm_cast
      omega
    · by_cases hflt10 : k % 100 < 10
      · rw [if_neg hf10, if_pos hflt10]
        show parseDecimal (natToStr (k / 100) ++ "." ++
          String.mk ((0 :: natDigits (k % 100)).map digitChar)) = some ((k : ℚ) / 100)
        rw [parseDecimal_append (k / 100) (0 :: natDigits (k % 100))
          (by
            intro d hd
            rcases List.mem_cons.mp hd with rfl | hd'
            · omega
            · exact natDigits_lt_ten _ d hd')
          (by simp)]
        congr 1
        rw [natDigits_single (k % 100) hflt10]
        simp only [List.foldl_cons, List.foldl_nil]
        norm_num
        field_simp
        norm_cast
        omega
      · rw [if_neg hf10, if_neg hflt10]
        show parseDecimal (natToStr (k / 100) ++ "." ++
          String.mk ((natDigits (k % 100)).map digitChar)) = some ((k : ℚ) / 100)
        rw [parseDecimal_append (k / 100) (natDigits (k % 100))
          (natDigits_lt_ten _) (natDigits_ne_nil _)]
        congr 1
        rw [natDigits_two (k % 100) (by omega) (by omega)]
        simp only [List.foldl_cons, List.foldl_nil]
        norm_num
        field_simp
        norm_cast
        omega

lemma parseRow_entryRow (e : HistoryEntry) (k : ℕ)
    (hk : e.confidence = (k : ℚ) / 100) :
    parseRow (entryRow e) = some e := by
  have h1 : parseNatStr (natToStr e.face) = some e.face := parse_natToStr e.face
  have h2 : parseDecimal (confToString e.confidence) = some e.confidence := by
    rw [hk]
    exact parse_confToString k
  simp only [parseRow, entryRow, h1, h2]

/-- Claim C4: the export is the fixed header row followed by exactly one row
per history entry, in insertion order; re-parsing a row reconstructs the
logged entry exactly (given its confidence carries at most 2-decimal
precision, as `round(conf, 2)` guarantees); and the write is a full overwrite
of the fixed path `emotion_history.csv`, whatever was there before. -/
theorem export_roundtrip_and_overwrite
    (history : List HistoryEntry) (fs : String → Option (List (List String)))
    (e : HistoryEntry) (_he : e ∈ history) (k : ℕ)
    (hk : e.confidence = (k : ℚ) / 100) :
    (exportCSV history).length = history.length + 1 ∧
    (exportCSV history).head? = some csvHeader ∧
    (∀ j, (exportCSV history)[j + 1]? = (history[j]?).map entryRow) ∧
    parseRow (entryRow e) = some e ∧
    writeFile fs "emotion_history.csv" (exportCSV history) "emotion_history.csv"
      = some (exportCSV history) := by
  refine ⟨by simp [exportCSV], rfl, ?_, parseRow_entryRow e k hk, by simp [writeFile]⟩
  intro j
  simp [exportCSV, List.getElem?_map]

/-- Witness for claim C4 at a concrete one-entry history over an arbitrary
prior file-store content. -/
theorem export_roundtrip_and_overwrite_witness :
    (exportCSV [w1Entry]).length = ([w1Entry] : List HistoryEntry).length + 1 ∧
    (exportCSV [w1Entry]).head? = some csvHeader ∧
    (∀ j, (exportCSV [w1Entry])[j + 1]? =
      (([w1Entry] : List HistoryEntry)[j]?).map entryRow) ∧
    parseRow (entryRow w1Entry) = some w1Entry ∧
    writeFile (fun _ => none) "emotion_history.csv" (exportCSV [w1Entry])
      "emotion_history.csv" = some (exportCSV [w1Entry]) :=
  export_roundtrip_and_overwrite [w1Entry] (fun _ => none) w1Entry (by simp)
    10000 (by norm_num [w1Entry])

end FaceDet
